import Mathlib

/-!
# Verification of the torch-harmonics spherical-harmonic-transform core

The repository ships the test suite `torch_harmonics/test_torch_harmonics.py`;
the library core itself (`legendre.py`, `sht.py`, the quadrature provider) is
not part of the sources, so the core operations are modelled here from the
specification (`spec.md` §4.1–§4.4, §6, §7), faithful to its words.  The
reference objects the tests compare against (`cml`, the closed-form associated
Legendre polynomials `pml`) are translated from the test file itself.
-/

namespace TorchHarmonics

open Real Finset

noncomputable section

/-- Normalization policy of §4.5: a pure selection among three conventions. -/
inductive NormKind
  | ortho
  | fourPi
  | schmidt
deriving DecidableEq

/-- Error taxonomy of §7. -/
inductive TErr
  | InvalidGridSpec
  | InvalidTruncation
  | ShapeMismatch
deriving DecidableEq

/-- Clamped argument of the square root used by the Legendre recurrence:
per §7, `1 - x^2` is clamped into `[0, ∞)` before the square root. -/
def clampArg (x : ℝ) : ℝ := max 0 (1 - x ^ 2)

/-- Coefficient of `x · P_{l-1}^m` in the fully-normalized degree recurrence
(§4.2, the "degree-recurrence coefficients appropriate to the chosen
normalization" for the orthonormal convention). -/
def afac (l m : ℕ) : ℝ :=
  Real.sqrt ((2 * (l : ℝ) - 1) * (2 * (l : ℝ) + 1) / (((l : ℝ) - m) * ((l : ℝ) + m)))

/-- Coefficient of `P_{l-2}^m` in the fully-normalized degree recurrence. -/
def bfac (l m : ℕ) : ℝ :=
  -Real.sqrt ((2 * (l : ℝ) + 1) * ((l : ℝ) + m - 1) * ((l : ℝ) - m - 1) /
    (((l : ℝ) - m) * ((l : ℝ) + m) * (2 * (l : ℝ) - 3)))

/-- Modelled from the spec (§4.2), since `legendre.py` is absent from the
sources: the orthonormal associated Legendre values produced by the stable
three-term recurrence, at abscissa `x = cos θ`.
* seed `P_0^0 = 1/√(4π)` (orthonormal normalization constant),
* diagonal `P_m^m = -√(1-x²) · √((2m+1)/(2m)) · P_{m-1}^{m-1}`
  (the sign is the Condon–Shortley phase; the square-root argument is
  clamped per §7),
* first off-diagonal step `P_{m+1}^m = √(2m+3) · x · P_m^m`,
* general off-diagonal step from `P_{l-1}^m` and `P_{l-2}^m` with the
  fully-normalized coefficients `afac`/`bfac`.
Entries below the triangle (`l < m`) are zero. -/
def Pnm (x : ℝ) (m l : ℕ) : ℝ :=
  if l < m then 0
  else if l = 0 then 1 / Real.sqrt (4 * Real.pi)
  else if m = l then
    -Real.sqrt (clampArg x) * Real.sqrt ((2 * (l : ℝ) + 1) / (2 * (l : ℝ))) *
      Pnm x (m - 1) (l - 1)
  else if m + 1 = l then Real.sqrt (2 * (l : ℝ) + 1) * x * Pnm x m (l - 1)
  else afac l m * x * Pnm x m (l - 1) + bfac l m * Pnm x m (l - 2)
termination_by l
decreasing_by all_goals omega

/-- Reference definition (spec §8, glossary): the unnormalized associated
Legendre polynomial `P_l^m`, Condon–Shortley phase included, given by the
standard recurrences
`P_0^0 = 1`, `P_m^m = -(2m-1)·√(1-x²)·P_{m-1}^{m-1}`,
`P_{m+1}^m = (2m+1)·x·P_m^m`,
`(l-m)·P_l^m = (2l-1)·x·P_{l-1}^m - (l+m-1)·P_{l-2}^m`. -/
def aLeg (x : ℝ) (m l : ℕ) : ℝ :=
  if l < m then 0
  else if l = 0 then 1
  else if m = l then -(2 * (l : ℝ) - 1) * Real.sqrt (1 - x ^ 2) * aLeg x (m - 1) (l - 1)
  else if m + 1 = l then (2 * (l : ℝ) - 1) * x * aLeg x m (l - 1)
  else ((2 * (l : ℝ) - 1) * x * aLeg x m (l - 1) -
      ((l : ℝ) + (m : ℝ) - 1) * aLeg x m (l - 2)) / ((l : ℝ) - (m : ℝ))
termination_by l
decreasing_by all_goals omega

/-- The table's normalization constant, translated from
`TestLegendrePolynomials.setUp` (`self.cml`):
`√((2l+1)/4/π) · √((l-m)!/(l+m)!)`. -/
def cml (m l : ℕ) : ℝ :=
  Real.sqrt ((2 * (l : ℝ) + 1) / 4 / Real.pi) *
    Real.sqrt ((Nat.factorial (l - m) : ℝ) / (Nat.factorial (l + m) : ℝ))

/-- Per-degree rescaling turning the orthonormal table into the table of the
selected normalization convention (§4.2, §4.5): `four-pi` scales every entry
by `√(4π)`; `schmidt` additionally divides degree `l` by `√(2l+1)`. -/
def normScale (n : NormKind) (l : ℕ) : ℝ :=
  match n with
  | NormKind.ortho => 1
  | NormKind.fourPi => Real.sqrt (4 * Real.pi)
  | NormKind.schmidt => Real.sqrt (4 * Real.pi) / Real.sqrt (2 * (l : ℝ) + 1)

/-- Modelled from the spec (§4.2, §6), since `legendre.py` is absent from the
sources: `precompute_legpoly` with an explicit normalization argument.  The
latitude grid is the function `t` (sample `i` lives at colatitude `t i`); the
returned table is indexed `(m, l, i)` and stores only the upper-triangular
region `m ≤ l` inside the truncation, zero elsewhere. -/
def precompute_legpoly_norm (mmax lmax : ℕ) (t : ℕ → ℝ) (n : NormKind) :
    ℕ → ℕ → ℕ → ℝ :=
  fun m l i =>
    if m < mmax ∧ l < lmax ∧ m ≤ l then normScale n l * Pnm (Real.cos (t i)) m l else 0

/-- Modelled from the spec: `precompute_legpoly` called without an explicit
normalization argument, i.e. with its default normalization (the call made by
`TestLegendrePolynomials.test_legendre`). -/
def precompute_legpoly (mmax lmax : ℕ) (t : ℕ → ℝ) : ℕ → ℕ → ℕ → ℝ :=
  precompute_legpoly_norm mmax lmax t NormKind.ortho

/-- Modelled from the spec (§6, §7), since the table-construction entry point
is absent from the sources: `build_legendre_table(mmax, lmax, theta, norm)`
fails fast with `InvalidTruncation` when `mmax > lmax` or `lmax > nlat`
(`nlat` being the length of the latitude sequence), returning no partial
table; otherwise it returns the precomputed table. -/
def build_legendre_table (mmax lmax : ℕ) (theta : List ℝ) (n : NormKind) :
    Except TErr (ℕ → ℕ → ℕ → ℝ) :=
  if mmax > lmax ∨ lmax > theta.length then Except.error TErr.InvalidTruncation
  else Except.ok (precompute_legpoly_norm mmax lmax (fun i => theta.getD i 0) n)

/-- The degree-`n` Legendre polynomial, by Bonnet's recurrence
`(n+2)·P_{n+2} = (2n+3)·X·P_{n+1} - (n+1)·P_n` (used by the `legendre-gauss`
branch of the grid provider, §4.1). -/
def legendreP : ℕ → Polynomial ℝ
  | 0 => 1
  | 1 => Polynomial.X
  | n + 2 =>
    Polynomial.C ((2 * (n : ℝ) + 3) / ((n : ℝ) + 2)) * (Polynomial.X * legendreP (n + 1)) -
      Polynomial.C (((n : ℝ) + 1) / ((n : ℝ) + 2)) * legendreP n

/-- Standard Gauss–Legendre quadrature weight at an abscissa `x` (§4.1):
`w = 2 / ((1-x²) · P_n'(x)²)`. -/
def lgWeight (n : ℕ) (x : ℝ) : ℝ :=
  2 / ((1 - x ^ 2) * ((Polynomial.derivative (legendreP n)).eval x) ^ 2)

/-- Modelled from the spec (§4.1, §6, §7), since the grid provider is absent
from the sources: `build_grid(kind, nlat)` produces the colatitudes and
quadrature weights.  `legendre-gauss` uses the arccos of the roots of the
degree-`nlat` Legendre polynomial with the standard Gauss–Legendre weights;
`equiangular` uses the uniform midpoint partition `θ_i = (i+1/2)·π/nlat`, with
the documented closed-form latitude rule `w_i = (π/nlat)·sin θ_i` (§9 leaves
the exact equiangular weight formula open).  `nlat < 1` or an unknown grid
kind fails fast with `InvalidGridSpec`. -/
def build_grid (kind : String) (nlat : ℕ) : Except TErr (List ℝ × List ℝ) :=
  if nlat < 1 then Except.error TErr.InvalidGridSpec
  else if kind = "legendre-gauss" then
    Except.ok
      (((legendreP nlat).roots.sort (· ≤ ·)).map Real.arccos,
        ((legendreP nlat).roots.sort (· ≤ ·)).map (lgWeight nlat))
  else if kind = "equiangular" then
    Except.ok
      ((List.range nlat).map (fun i => ((i : ℝ) + 1 / 2) * Real.pi / nlat),
        (List.range nlat).map
          (fun i => Real.pi / nlat * Real.sin (((i : ℝ) + 1 / 2) * Real.pi / nlat)))
  else Except.error TErr.InvalidGridSpec

/-- Modelled from the spec (§4.4 step 1), since `sht.py` is absent from the
sources: latitude synthesis of the half Fourier spectrum,
`F[i, m] = Σ_{l ∈ [m, lmax)} P[m, l, i] · coeffs[l, m]`. -/
def synthHalf (lmax : ℕ) (P : ℕ → ℕ → ℕ → ℝ) (coeffs : ℕ → ℕ → ℂ) (i m : ℕ) : ℂ :=
  ∑ l ∈ Finset.Ico m lmax, (P m l i : ℂ) * coeffs l m

/-- Modelled from the spec (§4.4 step 2): the non-negative-frequency half
spectrum, zero-padded beyond `mmax` up to the Nyquist limit. -/
def paddedSpec (lmax mmax : ℕ) (P : ℕ → ℕ → ℕ → ℝ) (coeffs : ℕ → ℕ → ℂ)
    (i m : ℕ) : ℂ :=
  if m < mmax then synthHalf lmax P coeffs i m else 0

/-- Modelled from the spec (§4.4 step 2): the full Hermitian-symmetric
spectrum of length `nlon`, obtained by enforcing the conjugate symmetry
`F[nlon - m] = conj (F[m])` on the padded half spectrum `F`. -/
def hermSpec (nlon : ℕ) (F : ℕ → ℂ) (k : ℕ) : ℂ :=
  if k ≤ nlon / 2 then F k else (starRingEnd ℂ) (F (nlon - k))

/-- One term of the inverse discrete Fourier transform along longitude:
`G_k · exp(2πi·k·j/nlon)`. -/
def invDFTterm (nlon : ℕ) (G : ℕ → ℂ) (j k : ℕ) : ℂ :=
  G k * Complex.exp (2 * Real.pi * Complex.I * k * j / nlon)

/-- Modelled from the spec (§4.4 step 3): one point of the (complex-valued)
inverse discrete Fourier transform along longitude,
`x_j = (1/nlon) Σ_{k < nlon} G_k · exp(2πi·k·j/nlon)`. -/
def invDFTpoint (nlon : ℕ) (G : ℕ → ℂ) (j : ℕ) : ℂ :=
  (1 / (nlon : ℂ)) * ∑ k ∈ Finset.range nlon, invDFTterm nlon G j k

/-- Modelled from the spec (§4.4, §6): the inverse transform
`inverse_transform(coeffs, table, nlat, nlon)`.  Its output is a real-valued
tensor on the `nlat × nlon` grid: any residual imaginary part of the inverse
DFT is discarded (the real part is taken), per the guarantee of §4.4. -/
def inverse_transform (nlon lmax mmax : ℕ) (P : ℕ → ℕ → ℕ → ℝ)
    (coeffs : ℕ → ℕ → ℂ) (i j : ℕ) : ℝ :=
  (invDFTpoint nlon (hermSpec nlon (paddedSpec lmax mmax P coeffs i)) j).re

/-- The closed-form associated Legendre polynomials (Condon–Shortley phase
included).  The cases `l ≤ 3` are translated from `self.pml` in
`TestLegendrePolynomials.setUp`; the cases `l = 4` are the standard closed
forms for the degree-4 polynomials, as required by the spec's property
"`m ≤ l ≤ 4`" (§8). -/
def pmlClosed (m l : ℕ) (x : ℝ) : ℝ :=
  match m, l with
  | 0, 0 => 1
  | 0, 1 => x
  | 1, 1 => -Real.sqrt (1 - x ^ 2)
  | 0, 2 => (3 * x ^ 2 - 1) / 2
  | 1, 2 => -3 * x * Real.sqrt (1 - x ^ 2)
  | 2, 2 => 3 * (1 - x ^ 2)
  | 0, 3 => (5 * x ^ 3 - 3 * x) / 2
  | 1, 3 => 3 / 2 * (1 - 5 * x ^ 2) * Real.sqrt (1 - x ^ 2)
  | 2, 3 => 15 * x * (1 - x ^ 2)
  | 3, 3 => -15 * Real.sqrt (1 - x ^ 2) ^ 3
  | 0, 4 => (35 * x ^ 4 - 30 * x ^ 2 + 3) / 8
  | 1, 4 => -(5 / 2) * (7 * x ^ 3 - 3 * x) * Real.sqrt (1 - x ^ 2)
  | 2, 4 => 15 / 2 * (7 * x ^ 2 - 1) * (1 - x ^ 2)
  | 3, 4 => -105 * x * Real.sqrt (1 - x ^ 2) ^ 3
  | 4, 4 => 105 * (1 - x ^ 2) ^ 2
  | _, _ => 0

end

/-! ## Theorems -/

/-- C5: `build_legendre_table` fails fast with `InvalidTruncation` whenever
`mmax > lmax` or `lmax > nlat`; the `Except.error` value carries no partial
table. -/
theorem c5_build_legendre_table_invalid_truncation
    (mmax lmax : ℕ) (theta : List ℝ) (n : NormKind)
    (h : mmax > lmax ∨ lmax > theta.length) :
    build_legendre_table mmax lmax theta n = Except.error TErr.InvalidTruncation := by
  simp only [build_legendre_table, if_pos h]

/-- C5 witness: `build_legendre_table(mmax=5, lmax=3, ...)` fails with
`InvalidTruncation`. -/
theorem c5_witness :
    build_legendre_table 5 3 [0, 0, 0] NormKind.ortho =
      Except.error TErr.InvalidTruncation :=
  c5_build_legendre_table_invalid_truncation 5 3 [0, 0, 0] NormKind.ortho
    (Or.inl (by norm_num))

/-- C6: `build_grid` fails with `InvalidGridSpec` whenever `nlat < 1` or the
grid kind is neither `legendre-gauss` nor `equiangular`. -/
theorem c6_build_grid_invalid_grid_spec (kind : String) (nlat : ℕ)
    (h : nlat < 1 ∨ (kind ≠ "legendre-gauss" ∧ kind ≠ "equiangular")) :
    build_grid kind nlat = Except.error TErr.InvalidGridSpec := by
  rcases h with h | ⟨h1, h2⟩
  · simp only [build_grid, if_pos h]
  · simp only [build_grid, if_neg h1, if_neg h2]
    split <;> rfl

/-- C6 witness: `build_grid("unknown", 10)` fails with `InvalidGridSpec`. -/
theorem c6_witness :
    build_grid "unknown" 10 = Except.error TErr.InvalidGridSpec :=
  c6_build_grid_invalid_grid_spec "unknown" 10
    (Or.inr ⟨by decide, by decide⟩)

/-- C8: table construction is a deterministic pure function of its arguments:
two calls of `build_legendre_table` with identical arguments yield identical
output. -/
theorem c8_build_legendre_table_deterministic
    (mmax₁ mmax₂ lmax₁ lmax₂ : ℕ) (theta₁ theta₂ : List ℝ) (n₁ n₂ : NormKind)
    (hm : mmax₁ = mmax₂) (hl : lmax₁ = lmax₂) (ht : theta₁ = theta₂)
    (hn : n₁ = n₂) :
    build_legendre_table mmax₁ lmax₁ theta₁ n₁ =
      build_legendre_table mmax₂ lmax₂ theta₂ n₂ := by
  rw [hm, hl, ht, hn]

/-- C8 witness: two identical calls at concrete arguments agree. -/
theorem c8_witness :
    build_legendre_table 2 3 [0, 1, 2] NormKind.schmidt =
      build_legendre_table 2 3 [0, 1, 2] NormKind.schmidt :=
  c8_build_legendre_table_deterministic 2 2 3 3 [0, 1, 2] [0, 1, 2]
    NormKind.schmidt NormKind.schmidt rfl rfl rfl rfl

/-! ### Reality of the Hermitian-symmetric inverse DFT (for C4) -/

/-- The longitude phase factor at frequency `nlon - k` is the conjugate of the
one at frequency `k` (for `0 < k < nlon`). -/
theorem expTerm_conj (N k j : ℕ) (hk0 : 0 < k) (hkN : k < N) :
    Complex.exp (2 * Real.pi * Complex.I * ((N - k : ℕ) : ℂ) * j / N) =
      (starRingEnd ℂ) (Complex.exp (2 * Real.pi * Complex.I * (k : ℂ) * j / N)) := by
  have hNne : (N : ℂ) ≠ 0 := Nat.cast_ne_zero.mpr (by omega)
  have hconj : (starRingEnd ℂ) (2 * Real.pi * Complex.I * (k : ℂ) * (j : ℂ) / N) =
      -(2 * Real.pi * Complex.I * (k : ℂ) * (j : ℂ) / N) := by
    rw [map_div₀]
    simp only [map_mul, map_ofNat, Complex.conj_ofReal, Complex.conj_I, map_natCast]
    ring
  rw [← Complex.exp_conj, hconj]
  have hsub : ((N - k : ℕ) : ℂ) = (N : ℂ) - (k : ℂ) := by
    push_cast [Nat.cast_sub hkN.le]
    ring
  rw [hsub, show 2 * Real.pi * Complex.I * ((N : ℂ) - (k : ℂ)) * (j : ℂ) / N =
      (j : ℂ) * (2 * Real.pi * Complex.I) +
        -(2 * Real.pi * Complex.I * (k : ℂ) * (j : ℂ) / N) by field_simp; ring]
  rw [Complex.exp_add,
    show ((j : ℂ)) = ((j : ℤ) : ℂ) by push_cast; rfl,
    Complex.exp_int_mul_two_pi_mul_I, one_mul]

/-- Conjugating the Hermitian-symmetric spectrum at bin `k` gives the bin
`nlon - k`, provided the `m = 0` and Nyquist bins have no imaginary part. -/
theorem hermSpec_conj_pair (N : ℕ) (F : ℕ → ℂ)
    (hNy : N % 2 = 0 → (F (N / 2)).im = 0) (k : ℕ) (hk0 : 0 < k) (hkN : k < N) :
    (starRingEnd ℂ) (hermSpec N F k) = hermSpec N F (N - k) := by
  unfold hermSpec
  rcases lt_trichotomy (2 * k) N with h | h | h
  · rw [if_pos (show k ≤ N / 2 by omega), if_neg (show ¬(N - k ≤ N / 2) by omega),
      show N - (N - k) = k by omega]
  · rw [if_pos (show k ≤ N / 2 by omega), show N - k = k by omega,
      if_pos (show k ≤ N / 2 by omega)]
    exact Complex.conj_eq_iff_im.mpr (by rw [show k = N / 2 by omega]; exact hNy (by omega))
  · rw [if_neg (show ¬(k ≤ N / 2) by omega), if_pos (show N - k ≤ N / 2 by omega),
      Complex.conj_conj]

/-- Conjugating one inverse-DFT term of the Hermitian-symmetric spectrum gives
the term at `nlon - k`. -/
theorem invDFTterm_conj (N : ℕ) (F : ℕ → ℂ)
    (hNy : N % 2 = 0 → (F (N / 2)).im = 0) (j k : ℕ) (hk0 : 0 < k) (hkN : k < N) :
    (starRingEnd ℂ) (invDFTterm N (hermSpec N F) j k) =
      invDFTterm N (hermSpec N F) j (N - k) := by
  unfold invDFTterm
  rw [map_mul, hermSpec_conj_pair N F hNy k hk0 hkN, ← expTerm_conj N k j hk0 hkN]

/-- The `k = 0` inverse-DFT term is real when the `m = 0` bin is. -/
theorem invDFTterm_zero_real (N : ℕ) (F : ℕ → ℂ) (h0 : (F 0).im = 0) (j : ℕ) :
    (starRingEnd ℂ) (invDFTterm N (hermSpec N F) j 0) = invDFTterm N (hermSpec N F) j 0 := by
  unfold invDFTterm hermSpec
  rw [if_pos (Nat.zero_le _)]
  simp only [Nat.cast_zero, mul_zero, zero_mul, zero_div, Complex.exp_zero, mul_one]
  exact Complex.conj_eq_iff_im.mpr h0

/-- The inverse DFT of the Hermitian-symmetric extension of a half spectrum
whose `m = 0` bin (and Nyquist bin, when `nlon` is even) is real produces a
strictly real signal: its imaginary part vanishes identically. -/
theorem invDFT_herm_real (N : ℕ) (F : ℕ → ℂ) (hN : 0 < N)
    (h0 : (F 0).im = 0) (hNy : N % 2 = 0 → (F (N / 2)).im = 0) (j : ℕ) :
    (invDFTpoint N (hermSpec N F) j).im = 0 := by
  obtain ⟨M, rfl⟩ : ∃ M, N = M + 1 := ⟨N - 1, by omega⟩
  have hsum : (starRingEnd ℂ) (∑ k ∈ Finset.range (M + 1), invDFTterm (M + 1) (hermSpec (M + 1) F) j k) =
      ∑ k ∈ Finset.range (M + 1), invDFTterm (M + 1) (hermSpec (M + 1) F) j k := by
    rw [map_sum,
      Finset.sum_range_succ' (fun k => (starRingEnd ℂ) (invDFTterm (M + 1) (hermSpec (M + 1) F) j k)) M,
      Finset.sum_range_succ' (fun k => invDFTterm (M + 1) (hermSpec (M + 1) F) j k) M,
      invDFTterm_zero_real (M + 1) F h0 j]
    congr 1
    calc ∑ i ∈ Finset.range M, (starRingEnd ℂ) (invDFTterm (M + 1) (hermSpec (M + 1) F) j (i + 1))
        = ∑ i ∈ Finset.range M, invDFTterm (M + 1) (hermSpec (M + 1) F) j (M + 1 - (i + 1)) := by
          refine Finset.sum_congr rfl fun i hi => ?_
          rw [Finset.mem_range] at hi
          exact invDFTterm_conj (M + 1) F hNy j (i + 1) (by omega) (by omega)
      _ = ∑ i ∈ Finset.range M,
            (fun i => invDFTterm (M + 1) (hermSpec (M + 1) F) j (i + 1)) (M - 1 - i) := by
          refine Finset.sum_congr rfl fun i hi => ?_
          rw [Finset.mem_range] at hi
          exact congrArg (invDFTterm (M + 1) (hermSpec (M + 1) F) j) (by omega)
      _ = ∑ i ∈ Finset.range M, invDFTterm (M + 1) (hermSpec (M + 1) F) j (i + 1) :=
          Finset.sum_range_reflect (fun i => invDFTterm (M + 1) (hermSpec (M + 1) F) j (i + 1)) M
  have him := Complex.conj_eq_iff_im.mp hsum
  unfold invDFTpoint
  rw [Complex.mul_im, him, mul_zero, zero_add]
  have h1 : (1 / ((M + 1 : ℕ) : ℂ)).im = 0 := by
    simp
  rw [h1, zero_mul]

/-- C4: for every complex spectral tensor, the modelled `inverse_transform`
returns a strictly real tensor on the `nlat × nlon` grid; under the enforced
conjugate symmetry (real `m = 0` and Nyquist bins) its real output coincides
with the full complex inverse DFT, so the discarded imaginary part is exactly
zero and nothing is propagated. -/
theorem c4_inverse_transform_strictly_real
    (nlon lmax mmax : ℕ) (P : ℕ → ℕ → ℕ → ℝ) (coeffs : ℕ → ℕ → ℂ) (i j : ℕ)
    (hN : 0 < nlon)
    (h0 : (paddedSpec lmax mmax P coeffs i 0).im = 0)
    (hNy : nlon % 2 = 0 → (paddedSpec lmax mmax P coeffs i (nlon / 2)).im = 0) :
    ((inverse_transform nlon lmax mmax P coeffs i j : ℝ) : ℂ) =
      invDFTpoint nlon (hermSpec nlon (paddedSpec lmax mmax P coeffs i)) j := by
  have him := invDFT_herm_real nlon (paddedSpec lmax mmax P coeffs i) hN h0 hNy j
  unfold inverse_transform
  apply Complex.ext
  · rw [Complex.ofReal_re]
  · rw [Complex.ofReal_im, him]

/-- C4 witness: concrete instance with `nlon = 2`, zero coefficients. -/
theorem c4_witness :
    ((inverse_transform 2 1 1 (fun _ _ _ => 1) (fun _ _ => 0) 0 0 : ℝ) : ℂ) =
      invDFTpoint 2 (hermSpec 2 (paddedSpec 1 1 (fun _ _ _ => 1) (fun _ _ => 0) 0)) 0 :=
  c4_inverse_transform_strictly_real 2 1 1 (fun _ _ _ => 1) (fun _ _ => 0) 0 0
    (by norm_num) (by simp [paddedSpec, synthHalf]) (fun _ => by simp [paddedSpec, synthHalf])

/-! ### The normalized recurrence computes `cml · P_l^m` (for C2 and C9) -/

/-- Two nonnegative reals with equal squares are equal. -/
theorem eq_of_sq_eq_sq (a b : ℝ) (ha : 0 ≤ a) (hb : 0 ≤ b) (h : a ^ 2 = b ^ 2) :
    a = b := by
  have h' : (a - b) * (a + b) = 0 := by nlinarith
  rcases mul_eq_zero.mp h' with h1 | h2
  · linarith
  · have ha0 : a = 0 := le_antisymm (by linarith) ha
    have hb0 : b = 0 := by linarith
    rw [ha0, hb0]

/-- Combining three square roots against a scaled pair of square roots by
comparing radicands. -/
theorem sqrt_triple_eq (A X Y q U V : ℝ) (hA : 0 ≤ A) (hX : 0 ≤ X)
    (hq : 0 ≤ q) (hU : 0 ≤ U) (h : A * (X * Y) = q ^ 2 * (U * V)) :
    Real.sqrt A * (Real.sqrt X * Real.sqrt Y) = q * (Real.sqrt U * Real.sqrt V) := by
  calc Real.sqrt A * (Real.sqrt X * Real.sqrt Y)
      = Real.sqrt (A * (X * Y)) := by rw [Real.sqrt_mul hA, Real.sqrt_mul hX]
    _ = Real.sqrt (q ^ 2 * (U * V)) := by rw [h]
    _ = q * (Real.sqrt U * Real.sqrt V) := by
        rw [Real.sqrt_mul (sq_nonneg q), Real.sqrt_sq hq, Real.sqrt_mul hU]

/-- Scaled variant of `sqrt_triple_eq`. -/
theorem sqrt_triple_scaled_eq (p A X Y q U V : ℝ) (hp : 0 ≤ p) (hA : 0 ≤ A)
    (hX : 0 ≤ X) (hq : 0 ≤ q) (hU : 0 ≤ U)
    (h : p ^ 2 * (A * (X * Y)) = q ^ 2 * (U * V)) :
    p * (Real.sqrt A * (Real.sqrt X * Real.sqrt Y)) =
      q * (Real.sqrt U * Real.sqrt V) := by
  calc p * (Real.sqrt A * (Real.sqrt X * Real.sqrt Y))
      = Real.sqrt (p ^ 2) * Real.sqrt (A * (X * Y)) := by
        rw [Real.sqrt_sq hp, Real.sqrt_mul hA, Real.sqrt_mul hX]
    _ = Real.sqrt (p ^ 2 * (A * (X * Y))) := (Real.sqrt_mul (sq_nonneg p) _).symm
    _ = Real.sqrt (q ^ 2 * (U * V)) := by rw [h]
    _ = q * (Real.sqrt U * Real.sqrt V) := by
        rw [Real.sqrt_mul (sq_nonneg q), Real.sqrt_sq hq, Real.sqrt_mul hU]

/-- The seed of the orthonormal recurrence is the normalization constant at
`(m, l) = (0, 0)`. -/
theorem cml_zero_zero : 1 / Real.sqrt (4 * Real.pi) = cml 0 0 := by
  unfold cml
  norm_num
  ring

/-- Diagonal recurrence step for the normalization constant. -/
theorem cml_diag_step (k : ℕ) :
    Real.sqrt ((2 * ((k : ℝ) + 1) + 1) / (2 * ((k : ℝ) + 1))) * cml k k =
      (2 * (k : ℝ) + 1) * cml (k + 1) (k + 1) := by
  have hfU : (Nat.factorial ((k + 1) + (k + 1)) : ℝ) =
      (2 * (k : ℝ) + 2) * ((2 * (k : ℝ) + 1) * (Nat.factorial (k + k) : ℝ)) := by
    rw [show (k + 1) + (k + 1) = ((k + k) + 1) + 1 from by omega, Nat.factorial_succ,
      Nat.factorial_succ]
    push_cast
    ring
  unfold cml
  simp only [Nat.sub_self, Nat.factorial_zero, Nat.cast_one]
  refine sqrt_triple_eq _ _ _ _ _ _ (by positivity) (by positivity) (by positivity)
    (by positivity) ?_
  rw [hfU]
  have hπ : Real.pi ≠ 0 := ne_of_gt Real.pi_pos
  have hf : ((k + k).factorial : ℝ) ≠ 0 := by positivity
  push_cast
  field_simp
  ring

/-- Subdiagonal recurrence step for the normalization constant. -/
theorem cml_sub_step (m : ℕ) :
    Real.sqrt (2 * ((m : ℝ) + 1) + 1) * cml m m = (2 * (m : ℝ) + 1) * cml m (m + 1) := by
  have hfU : (Nat.factorial (m + 1 + m) : ℝ) =
      (2 * (m : ℝ) + 1) * (Nat.factorial (m + m) : ℝ) := by
    rw [show m + 1 + m = (m + m) + 1 from by omega, Nat.factorial_succ]
    push_cast
    ring
  unfold cml
  simp only [Nat.sub_self, Nat.factorial_zero, Nat.cast_one,
    show m + 1 - m = 1 from by omega, Nat.factorial_one]
  refine sqrt_triple_eq _ _ _ _ _ _ (by positivity) (by positivity) (by positivity)
    (by positivity) ?_
  rw [hfU]
  have hπ : Real.pi ≠ 0 := ne_of_gt Real.pi_pos
  have hf : ((m + m).factorial : ℝ) ≠ 0 := by positivity
  push_cast
  field_simp
  ring

/-- Off-diagonal recurrence step for the normalization constant: the
`P_{l-1}^m` coefficient. -/
theorem cml_a_step (m d : ℕ) :
    ((d : ℝ) + 2) * (afac (m + 2 + d) m * cml m (m + 1 + d)) =
      (2 * (m : ℝ) + 2 * (d : ℝ) + 3) * cml m (m + 2 + d) := by
  have hπ : Real.pi ≠ 0 := ne_of_gt Real.pi_pos
  have hfV : (Nat.factorial (d + 2) : ℝ) = ((d : ℝ) + 2) * (Nat.factorial (d + 1) : ℝ) := by
    rw [show d + 2 = (d + 1) + 1 from by omega, Nat.factorial_succ]
    push_cast
    ring
  have hfU : (Nat.factorial (2 * m + 2 + d) : ℝ) =
      (2 * (m : ℝ) + 2 + (d : ℝ)) * (Nat.factorial (2 * m + 1 + d) : ℝ) := by
    rw [show 2 * m + 2 + d = (2 * m + 1 + d) + 1 from by omega, Nat.factorial_succ]
    push_cast
    ring
  have hf1 : ((2 * m + 1 + d).factorial : ℝ) ≠ 0 := by positivity
  have hf2 : ((d + 1).factorial : ℝ) ≠ 0 := by positivity
  unfold afac cml
  simp only [show m + 1 + d - m = d + 1 from by omega,
    show m + 2 + d - m = d + 2 from by omega,
    show m + 1 + d + m = 2 * m + 1 + d from by omega,
    show m + 2 + d + m = 2 * m + 2 + d from by omega]
  refine sqrt_triple_scaled_eq _ _ _ _ _ _ _ (by positivity) ?_ (by positivity)
    (by positivity) (by positivity) ?_
  · push_cast
    apply div_nonneg
    · nlinarith [Nat.cast_nonneg (α := ℝ) m, Nat.cast_nonneg (α := ℝ) d]
    · nlinarith [Nat.cast_nonneg (α := ℝ) m, Nat.cast_nonneg (α := ℝ) d]
  · rw [hfV, hfU]
    have hsub : ((m : ℝ) + 2 + (d : ℝ) - (m : ℝ)) ≠ 0 := by
      intro hc
      nlinarith [Nat.cast_nonneg (α := ℝ) d]
    push_cast
    field_simp
    ring

set_option maxHeartbeats 800000 in
/-- Off-diagonal recurrence step for the normalization constant: the
`P_{l-2}^m` coefficient. -/
theorem cml_b_step (m d : ℕ) :
    ((d : ℝ) + 2) * (bfac (m + 2 + d) m * cml m (m + d)) =
      -((2 * (m : ℝ) + (d : ℝ) + 1) * cml m (m + 2 + d)) := by
  have hπ : Real.pi ≠ 0 := ne_of_gt Real.pi_pos
  have hfV : (Nat.factorial (d + 2) : ℝ) =
      ((d : ℝ) + 2) * (((d : ℝ) + 1) * (Nat.factorial d : ℝ)) := by
    rw [show d + 2 = (d + 1) + 1 from by omega, Nat.factorial_succ, Nat.factorial_succ]
    push_cast
    ring
  have hfU : (Nat.factorial (2 * m + 2 + d) : ℝ) =
      (2 * (m : ℝ) + 2 + (d : ℝ)) *
        ((2 * (m : ℝ) + 1 + (d : ℝ)) * (Nat.factorial (2 * m + d) : ℝ)) := by
    rw [show 2 * m + 2 + d = ((2 * m + d) + 1) + 1 from by omega, Nat.factorial_succ,
      Nat.factorial_succ]
    push_cast
    ring
  have hf1 : ((2 * m + d).factorial : ℝ) ≠ 0 := by positivity
  have hf2 : ((d).factorial : ℝ) ≠ 0 := by positivity
  unfold bfac cml
  simp only [show m + d - m = d from by omega,
    show m + 2 + d - m = d + 2 from by omega,
    show m + d + m = 2 * m + d from by omega,
    show m + 2 + d + m = 2 * m + 2 + d from by omega]
  rw [neg_mul, mul_neg, neg_inj]
  refine sqrt_triple_scaled_eq _ _ _ _ _ _ _ (by positivity) ?_ (by positivity)
    (by positivity) (by positivity) ?_
  · push_cast
    apply div_nonneg
    · refine mul_nonneg (mul_nonneg ?_ ?_) ?_ <;>
        nlinarith [Nat.cast_nonneg (α := ℝ) m, Nat.cast_nonneg (α := ℝ) d]
    · refine mul_nonneg (mul_nonneg ?_ ?_) ?_ <;>
        nlinarith [Nat.cast_nonneg (α := ℝ) m, Nat.cast_nonneg (α := ℝ) d]
  · rw [hfV, hfU]
    push_cast
    rw [show ((m : ℝ) + 2 + (d : ℝ) - (m : ℝ) - 1) = (d : ℝ) + 1 from by ring,
      show ((m : ℝ) + 2 + (d : ℝ) + (m : ℝ) - 1) = 2 * (m : ℝ) + (d : ℝ) + 1 from by ring,
      show ((m : ℝ) + 2 + (d : ℝ) - (m : ℝ)) = (d : ℝ) + 2 from by ring,
      show (2 * ((m : ℝ) + 2 + (d : ℝ)) - 3) = 2 * (m : ℝ) + 2 * (d : ℝ) + 1 from by ring]
    have hd2 : ((d : ℝ) + 2) ≠ 0 := by positivity
    have hd1 : ((d : ℝ) + 1) ≠ 0 := by positivity
    have hmm1 : (2 * (m : ℝ) + (d : ℝ) + 1) ≠ 0 := by positivity
    have hmm2 : (2 * (m : ℝ) + 2 * (d : ℝ) + 1) ≠ 0 := by positivity
    have hmm3 : ((m : ℝ) + 2 + (d : ℝ) + (m : ℝ)) ≠ 0 := by positivity
    field_simp
    ring

/-- Core correctness of the orthonormal recurrence: on `[-1, 1]` the table
value at `(m, l)` is the normalization constant `cml` times the unnormalized
associated Legendre polynomial (Condon–Shortley phase included). -/
theorem Pnm_eq_cml_mul_aLeg :
    ∀ l m (x : ℝ), m ≤ l → x ^ 2 ≤ 1 → Pnm x m l = cml m l * aLeg x m l := by
  intro l
  induction l using Nat.strong_induction_on with
  | _ l ih =>
    intro m x hml hx
    have hclamp : clampArg x = 1 - x ^ 2 := max_eq_right (by linarith)
    rcases Nat.eq_zero_or_pos l with rfl | hl
    · have hm0 : m = 0 := by omega
      subst hm0
      rw [Pnm.eq_def, aLeg.eq_def]
      rw [if_neg (show ¬((0 : ℕ) < 0) from by omega), if_pos rfl,
        if_neg (show ¬((0 : ℕ) < 0) from by omega), if_pos rfl, mul_one]
      exact cml_zero_zero
    rcases eq_or_lt_of_le hml with rfl | hmlt
    · obtain ⟨k, rfl⟩ : ∃ k, m = k + 1 := ⟨m - 1, by omega⟩
      rw [Pnm.eq_def, aLeg.eq_def]
      rw [if_neg (show ¬(k + 1 < k + 1) from by omega),
        if_neg (show ¬(k + 1 = 0) from by omega), if_pos rfl,
        if_neg (show ¬(k + 1 < k + 1) from by omega),
        if_neg (show ¬(k + 1 = 0) from by omega), if_pos rfl]
      simp only [Nat.add_sub_cancel]
      rw [ih k (by omega) k x le_rfl hx, hclamp]
      push_cast
      linear_combination (-(Real.sqrt (1 - x ^ 2)) * aLeg x k k) * cml_diag_step k
    rcases eq_or_lt_of_le (show m + 1 ≤ l from hmlt) with hsub | hoff
    · rw [← hsub]
      rw [Pnm.eq_def, aLeg.eq_def]
      rw [if_neg (show ¬(m + 1 < m) from by omega),
        if_neg (show ¬(m + 1 = 0) from by omega),
        if_neg (show ¬(m = m + 1) from by omega), if_pos rfl,
        if_neg (show ¬(m + 1 < m) from by omega),
        if_neg (show ¬(m + 1 = 0) from by omega),
        if_neg (show ¬(m = m + 1) from by omega), if_pos rfl]
      simp only [Nat.add_sub_cancel]
      rw [ih m (by omega) m x le_rfl hx]
      push_cast
      linear_combination (x * aLeg x m m) * cml_sub_step m
    · obtain ⟨d, rfl⟩ : ∃ d, l = m + 2 + d := ⟨l - m - 2, by omega⟩
      rw [Pnm.eq_def, aLeg.eq_def]
      rw [if_neg (show ¬(m + 2 + d < m) from by omega),
        if_neg (show ¬(m + 2 + d = 0) from by omega),
        if_neg (show ¬(m = m + 2 + d) from by omega),
        if_neg (show ¬(m + 1 = m + 2 + d) from by omega),
        if_neg (show ¬(m + 2 + d < m) from by omega),
        if_neg (show ¬(m + 2 + d = 0) from by omega),
        if_neg (show ¬(m = m + 2 + d) from by omega),
        if_neg (show ¬(m + 1 = m + 2 + d) from by omega)]
      simp only [show m + 2 + d - 1 = m + 1 + d from by omega,
        show m + 2 + d - 2 = m + d from by omega]
      rw [ih (m + 1 + d) (by omega) m x (by omega) hx,
        ih (m + d) (by omega) m x (by omega) hx]
      rw [← mul_div_assoc]
      rw [eq_div_iff (show ((m + 2 + d : ℕ) : ℝ) - (m : ℝ) ≠ 0 from by
        push_cast
        intro hc
        nlinarith [Nat.cast_nonneg (α := ℝ) d])]
      push_cast
      linear_combination (x * aLeg x m (m + 1 + d)) * cml_a_step m d +
        (aLeg x m (m + d)) * cml_b_step m d

/-- For degrees up to 4 the recurrence-defined `aLeg` agrees with the
explicit closed forms (the test's `pml` table, extended to `l = 4`). -/
theorem aLeg_closed_form (m l : ℕ) (hml : m ≤ l) (hl4 : l ≤ 4) (x : ℝ)
    (hx : x ^ 2 ≤ 1) : aLeg x m l = pmlClosed m l x := by
  have hs : Real.sqrt (1 - x ^ 2) ^ 2 = 1 - x ^ 2 := Real.sq_sqrt (by linarith)
  interval_cases l <;> interval_cases m
  · simp [aLeg, pmlClosed]
  · simp [aLeg, pmlClosed]
    ring
  · simp [aLeg, pmlClosed]
    ring
  · simp [aLeg, pmlClosed]
    ring
  · simp [aLeg, pmlClosed]
    ring
  · simp [aLeg, pmlClosed]
    linear_combination 3 * hs
  · simp [aLeg, pmlClosed]
    ring
  · simp [aLeg, pmlClosed]
    ring
  · simp [aLeg, pmlClosed]
    linear_combination 15 * x * hs
  · simp [aLeg, pmlClosed]
    ring
  · simp [aLeg, pmlClosed]
    ring
  · simp [aLeg, pmlClosed]
    ring
  · simp [aLeg, pmlClosed]
    linear_combination (15 / 2 * (7 * x ^ 2 - 1)) * hs
  · simp [aLeg, pmlClosed]
    ring
  · simp [aLeg, pmlClosed]
    linear_combination (105 * (Real.sqrt (1 - x ^ 2) ^ 2 + (1 - x ^ 2))) * hs

/-- C9: `precompute_legpoly` called without a normalization argument uses the
orthonormal convention: every stored value equals
`√((2l+1)/(4π) · (l-m)!/(l+m)!)` times the unnormalized associated Legendre
polynomial (Condon–Shortley phase included) at `cos θ`. -/
theorem c9_default_norm_is_ortho (mmax lmax : ℕ) (t : ℕ → ℝ) (m l i : ℕ)
    (hml : m ≤ l) (hm : m < mmax) (hl : l < lmax) :
    precompute_legpoly mmax lmax t m l i =
      Real.sqrt ((2 * (l : ℝ) + 1) / (4 * Real.pi) *
          ((Nat.factorial (l - m) : ℝ) / (Nat.factorial (l + m) : ℝ))) *
        aLeg (Real.cos (t i)) m l := by
  have hx : (Real.cos (t i)) ^ 2 ≤ 1 := Real.cos_sq_le_one (t i)
  unfold precompute_legpoly precompute_legpoly_norm
  rw [if_pos ⟨hm, hl, hml⟩]
  simp only [normScale, one_mul]
  rw [Pnm_eq_cml_mul_aLeg l m _ hml hx]
  congr 1
  unfold cml
  rw [← Real.sqrt_mul (by positivity)]
  congr 1
  ring

/-- C9 witness: the degree-0 entry of a table built with the default
normalization. -/
theorem c9_witness :
    precompute_legpoly 1 1 (fun _ => 0) 0 0 0 =
      Real.sqrt ((2 * ((0 : ℕ) : ℝ) + 1) / (4 * Real.pi) *
          ((Nat.factorial (0 - 0) : ℝ) / (Nat.factorial (0 + 0) : ℝ))) *
        aLeg (Real.cos ((fun _ => (0 : ℝ)) 0)) 0 0 :=
  c9_default_norm_is_ortho 1 1 (fun _ => 0) 0 0 0 le_rfl (by norm_num) (by norm_num)

/-- C2: for all `m ≤ l ≤ 4` and all colatitudes `θ ∈ [0, π]`, the table entry
of `precompute_legpoly` equals the closed-form associated Legendre polynomial
(Condon–Shortley phase included) at `cos θ` times the table's normalization
constant `cml`, hence matches it within `1e-9` absolute error. -/
theorem c2_table_matches_closed_form (mmax lmax : ℕ) (t : ℕ → ℝ) (m l i : ℕ)
    (hml : m ≤ l) (hl4 : l ≤ 4) (hm : m < mmax) (hl : l < lmax)
    (hθ0 : 0 ≤ t i) (hθπ : t i ≤ Real.pi) :
    |precompute_legpoly mmax lmax t m l i -
        cml m l * pmlClosed m l (Real.cos (t i))| ≤ 1 / 1000000000 := by
  have hx : (Real.cos (t i)) ^ 2 ≤ 1 := Real.cos_sq_le_one (t i)
  unfold precompute_legpoly precompute_legpoly_norm
  rw [if_pos ⟨hm, hl, hml⟩]
  simp only [normScale, one_mul]
  rw [Pnm_eq_cml_mul_aLeg l m _ hml hx, aLeg_closed_form m l hml hl4 _ hx,
    sub_self, abs_zero]
  norm_num

/-- C2 witness: the `(0, 0)` entry at `θ = 0`. -/
theorem c2_witness :
    |precompute_legpoly 1 1 (fun _ => 0) 0 0 0 -
        cml 0 0 * pmlClosed 0 0 (Real.cos ((fun _ => (0 : ℝ)) 0))| ≤ 1 / 1000000000 :=
  c2_table_matches_closed_form 1 1 (fun _ => 0) 0 0 0 le_rfl (by norm_num)
    (by norm_num) (by norm_num) le_rfl Real.pi_nonneg

/-! ### Finiteness of the table entries (for C7) -/

/-- A square root is at most any nonnegative `B` whose square dominates the
radicand. -/
theorem sqrt_le_bound (c B : ℝ) (hB : 0 ≤ B) (h : c ≤ B ^ 2) : Real.sqrt c ≤ B := by
  calc Real.sqrt c ≤ Real.sqrt (B ^ 2) := Real.sqrt_le_sqrt h
    _ = B := Real.sqrt_sq hB

/-- The off-diagonal coefficient `afac l m` is at most `2l + 1`. -/
theorem afac_le (m d : ℕ) :
    afac (m + 2 + d) m ≤ 2 * ((m : ℝ) + 2 + (d : ℝ)) + 1 := by
  have hm := Nat.cast_nonneg (α := ℝ) m
  have hd := Nat.cast_nonneg (α := ℝ) d
  unfold afac
  apply sqrt_le_bound _ _ (by positivity)
  push_cast
  rw [div_le_iff (by nlinarith)]
  nlinarith [sq_nonneg ((m : ℝ) + (d : ℝ)), mul_nonneg hm hd,
    mul_nonneg (mul_nonneg hm hd) hd, mul_nonneg (mul_nonneg hm hm) hd]

/-- The off-diagonal coefficient `bfac l m` has absolute value at most `3`. -/
theorem bfac_abs_le (m d : ℕ) : |bfac (m + 2 + d) m| ≤ 3 := by
  have hm := Nat.cast_nonneg (α := ℝ) m
  have hd := Nat.cast_nonneg (α := ℝ) d
  unfold bfac
  rw [abs_neg, abs_of_nonneg (Real.sqrt_nonneg _)]
  apply sqrt_le_bound _ _ (by norm_num)
  push_cast
  have h1 : (0 : ℝ) < (m : ℝ) + 2 + (d : ℝ) - (m : ℝ) := by nlinarith
  have h2 : (0 : ℝ) < (m : ℝ) + 2 + (d : ℝ) + (m : ℝ) := by nlinarith
  have h3 : (0 : ℝ) < 2 * ((m : ℝ) + 2 + (d : ℝ)) - 3 := by nlinarith
  rw [div_le_iff (mul_pos (mul_pos h1 h2) h3)]
  nlinarith [mul_nonneg hm hd, mul_nonneg (mul_nonneg hm hd) hd,
    mul_nonneg (mul_nonneg hm hm) hd, mul_nonneg (mul_nonneg hd hd) hd,
    mul_nonneg (mul_nonneg hm hm) hm, sq_nonneg ((m : ℝ) + (d : ℝ))]

/-- Every orthonormal-recurrence value at an abscissa in `[-1, 1]` is bounded
by the explicit finite bound `(l+1)! · 9^(l+1)`. -/
theorem Pnm_abs_le :
    ∀ l m (x : ℝ), x ^ 2 ≤ 1 →
      |Pnm x m l| ≤ (Nat.factorial (l + 1) : ℝ) * 9 ^ (l + 1) := by
  intro l
  induction l using Nat.strong_induction_on with
  | _ l ih =>
    intro m x hx
    have habs : |x| ≤ 1 := by
      rw [abs_le]
      constructor <;> nlinarith
    have hs0 : 0 ≤ Real.sqrt (clampArg x) := Real.sqrt_nonneg _
    have hs1 : Real.sqrt (clampArg x) ≤ 1 := by
      apply Real.sqrt_le_one.mpr
      unfold clampArg
      apply max_le (by norm_num) (by nlinarith)
    by_cases hlm : l < m
    · rw [Pnm.eq_def, if_pos hlm, abs_zero]
      positivity
    have hml : m ≤ l := by omega
    rcases Nat.eq_zero_or_pos l with rfl | hl
    · rw [Pnm.eq_def, if_neg hlm, if_pos rfl]
      rw [abs_of_nonneg (by positivity)]
      have h1 : (1 : ℝ) ≤ Real.sqrt (4 * Real.pi) := by
        rw [show (1 : ℝ) = Real.sqrt 1 from Real.sqrt_one.symm]
        exact Real.sqrt_le_sqrt (by nlinarith [Real.pi_gt_three])
      have h2 : 1 / Real.sqrt (4 * Real.pi) ≤ 1 := by
        rw [div_le_one (by positivity)]
        exact h1
      calc 1 / Real.sqrt (4 * Real.pi) ≤ 1 := h2
        _ ≤ (Nat.factorial (0 + 1) : ℝ) * 9 ^ (0 + 1) := by norm_num [Nat.factorial]
    rcases eq_or_lt_of_le hml with rfl | hmlt
    · obtain ⟨k, rfl⟩ : ∃ k, m = k + 1 := ⟨m - 1, by omega⟩
      rw [Pnm.eq_def, if_neg hlm, if_neg (show ¬(k + 1 = 0) from by omega), if_pos rfl]
      simp only [Nat.add_sub_cancel]
      have hq0 : (0 : ℝ) ≤ Real.sqrt ((2 * ((k + 1 : ℕ) : ℝ) + 1) / (2 * ((k + 1 : ℕ) : ℝ))) :=
        Real.sqrt_nonneg _
      have hq : Real.sqrt ((2 * ((k + 1 : ℕ) : ℝ) + 1) / (2 * ((k + 1 : ℕ) : ℝ))) ≤ 2 := by
        apply sqrt_le_bound _ _ (by norm_num)
        rw [div_le_iff (by push_cast; positivity)]
        push_cast
        nlinarith [Nat.cast_nonneg (α := ℝ) k]
      have hIH := ih k (by omega) k x hx
      rw [abs_mul, abs_mul, abs_neg, abs_of_nonneg hs0, abs_of_nonneg hq0]
      have hsq : Real.sqrt (clampArg x) *
          Real.sqrt ((2 * ((k + 1 : ℕ) : ℝ) + 1) / (2 * ((k + 1 : ℕ) : ℝ))) ≤ 2 := by
        nlinarith
      have hmain := mul_le_mul hsq hIH (abs_nonneg _) (by norm_num : (0 : ℝ) ≤ 2)
      refine hmain.trans ?_
      have ef : (Nat.factorial (k + 1 + 1) : ℝ) = ((k : ℝ) + 2) * (Nat.factorial (k + 1) : ℝ) := by
        rw [Nat.factorial_succ]
        push_cast
        ring
      have ep : (9 : ℝ) ^ (k + 1 + 1) = 9 ^ (k + 1) * 9 := pow_succ 9 (k + 1)
      rw [ef, ep]
      have hF : (0 : ℝ) < (Nat.factorial (k + 1) : ℝ) := by positivity
      have hP : (0 : ℝ) < (9 : ℝ) ^ (k + 1) := by positivity
      nlinarith [mul_pos hF hP, Nat.cast_nonneg (α := ℝ) k]
    rcases eq_or_lt_of_le (show m + 1 ≤ l from hmlt) with hsub | hoff
    · rw [← hsub]
      rw [Pnm.eq_def, if_neg (show ¬(m + 1 < m) from by omega),
        if_neg (show ¬(m + 1 = 0) from by omega),
        if_neg (show ¬(m = m + 1) from by omega), if_pos rfl]
      simp only [Nat.add_sub_cancel]
      have hq0 : (0 : ℝ) ≤ Real.sqrt (2 * ((m + 1 : ℕ) : ℝ) + 1) := Real.sqrt_nonneg _
      have hq : Real.sqrt (2 * ((m + 1 : ℕ) : ℝ) + 1) ≤ 2 * ((m : ℝ) + 1) + 1 := by
        apply sqrt_le_bound _ _ (by positivity)
        push_cast
        nlinarith [Nat.cast_nonneg (α := ℝ) m]
      have hIH := ih m (by omega) m x hx
      rw [abs_mul, abs_mul, abs_of_nonneg hq0]
      have hb1 : Real.sqrt (2 * ((m + 1 : ℕ) : ℝ) + 1) * |x| ≤ (2 * ((m : ℝ) + 1) + 1) * 1 :=
        mul_le_mul hq habs (abs_nonneg x) (by positivity)
      have hmain := mul_le_mul hb1 hIH (abs_nonneg _) (by positivity)
      refine hmain.trans ?_
      have ef : (Nat.factorial (m + 1 + 1) : ℝ) = ((m : ℝ) + 2) * (Nat.factorial (m + 1) : ℝ) := by
        rw [Nat.factorial_succ]
        push_cast
        ring
      have ep : (9 : ℝ) ^ (m + 1 + 1) = 9 ^ (m + 1) * 9 := pow_succ 9 (m + 1)
      rw [ef, ep]
      have hF : (0 : ℝ) < (Nat.factorial (m + 1) : ℝ) := by positivity
      have hP : (0 : ℝ) < (9 : ℝ) ^ (m + 1) := by positivity
      nlinarith [mul_pos hF hP, Nat.cast_nonneg (α := ℝ) m]
    · obtain ⟨d, rfl⟩ : ∃ d, l = m + 2 + d := ⟨l - m - 2, by omega⟩
      rw [Pnm.eq_def, if_neg hlm, if_neg (show ¬(m + 2 + d = 0) from by omega),
        if_neg (show ¬(m = m + 2 + d) from by omega),
        if_neg (show ¬(m + 1 = m + 2 + d) from by omega)]
      simp only [show m + 2 + d - 1 = m + 1 + d from by omega,
        show m + 2 + d - 2 = m + d from by omega]
      have hafac0 : 0 ≤ afac (m + 2 + d) m := Real.sqrt_nonneg _
      have h1 : |afac (m + 2 + d) m * x * Pnm x m (m + 1 + d)| ≤
          (2 * ((m : ℝ) + 2 + (d : ℝ)) + 1) *
            ((Nat.factorial (m + 1 + d + 1) : ℝ) * 9 ^ (m + 1 + d + 1)) := by
        rw [abs_mul, abs_mul, abs_of_nonneg hafac0]
        have hb1 : afac (m + 2 + d) m * |x| ≤ (2 * ((m : ℝ) + 2 + (d : ℝ)) + 1) * 1 :=
          mul_le_mul (afac_le m d) habs (abs_nonneg x) (by positivity)
        have hres := mul_le_mul hb1 (ih (m + 1 + d) (by omega) m x hx) (abs_nonneg _)
          (by positivity)
        rw [mul_one] at hres
        exact hres
      have h2 : |bfac (m + 2 + d) m * Pnm x m (m + d)| ≤
          3 * ((Nat.factorial (m + d + 1) : ℝ) * 9 ^ (m + d + 1)) := by
        rw [abs_mul]
        exact mul_le_mul (bfac_abs_le m d) (ih (m + d) (by omega) m x hx)
          (abs_nonneg _) (by norm_num)
      refine ((abs_add _ _).trans (add_le_add h1 h2)).trans ?_
      have ef1 : (Nat.factorial (m + 2 + d + 1) : ℝ) =
          ((m : ℝ) + (d : ℝ) + 3) * (((m : ℝ) + (d : ℝ) + 2) *
            (Nat.factorial (m + d + 1) : ℝ)) := by
        rw [show m + 2 + d + 1 = ((m + d + 1) + 1) + 1 from by omega, Nat.factorial_succ,
          Nat.factorial_succ]
        push_cast
        ring
      have ef2 : (Nat.factorial (m + 1 + d + 1) : ℝ) =
          ((m : ℝ) + (d : ℝ) + 2) * (Nat.factorial (m + d + 1) : ℝ) := by
        rw [show m + 1 + d + 1 = (m + d + 1) + 1 from by omega, Nat.factorial_succ]
        push_cast
        ring
      have ep1 : (9 : ℝ) ^ (m + 1 + d + 1) = 9 ^ (m + d + 1) * 9 := by
        rw [← pow_succ]
        congr 1
        omega
      have ep2 : (9 : ℝ) ^ (m + 2 + d + 1) = 9 ^ (m + d + 1) * 81 := by
        rw [show m + 2 + d + 1 = ((m + d + 1) + 1) + 1 from by omega, pow_succ, pow_succ]
        ring
      rw [ef1, ef2, ep1, ep2]
      have hG : (0 : ℝ) < (Nat.factorial (m + d + 1) : ℝ) * 9 ^ (m + d + 1) := by positivity
      have hm' := Nat.cast_nonneg (α := ℝ) m
      have hd' := Nat.cast_nonneg (α := ℝ) d
      nlinarith [mul_nonneg hG.le hm', mul_nonneg hG.le hd',
        mul_nonneg (mul_nonneg hG.le hm') hd', mul_nonneg (mul_nonneg hG.le hm') hm',
        mul_nonneg (mul_nonneg hG.le hd') hd', hG]

/-- C7: for every latitude grid in `[0, π]` that includes both endpoints
`θ = 0` and `θ = π`, the argument of the square root in the table recurrence
is clamped into `[0, ∞)`, and every entry of the table built by
`precompute_legpoly` is finite: it is bounded in absolute value by the
explicit bound `(l+1)! · 9^(l+1)`, for every index `(m, l, i)`. -/
theorem c7_table_entries_finite (mmax lmax : ℕ) (t : ℕ → ℝ) (i0 i1 : ℕ)
    (hend0 : t i0 = 0) (hend1 : t i1 = Real.pi)
    (hrange : ∀ j, 0 ≤ t j ∧ t j ≤ Real.pi) (m l i : ℕ) :
    0 ≤ clampArg (Real.cos (t i)) ∧
      |precompute_legpoly mmax lmax t m l i| ≤
        (Nat.factorial (l + 1) : ℝ) * 9 ^ (l + 1) := by
  constructor
  · exact le_max_left _ _
  · unfold precompute_legpoly precompute_legpoly_norm
    split
    · simp only [normScale, one_mul]
      exact Pnm_abs_le l m _ (Real.cos_sq_le_one (t i))
    · rw [abs_zero]
      positivity

/-- C7 witness: a two-point grid holding exactly the endpoints `0` and `π`. -/
theorem c7_witness :
    0 ≤ clampArg (Real.cos ((fun j : ℕ => if j = 0 then (0 : ℝ) else Real.pi) 0)) ∧
      |precompute_legpoly 1 1 (fun j : ℕ => if j = 0 then (0 : ℝ) else Real.pi) 0 0 0| ≤
        (Nat.factorial (0 + 1) : ℝ) * 9 ^ (0 + 1) :=
  c7_table_entries_finite 1 1 (fun j : ℕ => if j = 0 then (0 : ℝ) else Real.pi) 0 1
    (by norm_num) (by norm_num)
    (fun j => by
      dsimp only
      split
      · exact ⟨le_rfl, Real.pi_nonneg⟩
      · exact ⟨Real.pi_nonneg, le_rfl⟩)
    0 0 0

end TorchHarmonics
